import Mathlib

/-!
Verification of the TelcWrite correction-rendering pipeline and its
storage collaborators, embedded shallowly from the repository sources:

* `src/unnamed/part_001` — server-side PDF export (PDFKit): `renderCorrection`,
  `checkPage`, the segment tokenizer built from the diff-marker regex (g-flagged,
  alternation of `--(.*?)--` and `++(.*?)++`).
* `src/backend/pdf-export.js` — client-side PDF export (jsPDF):
  `wrapCorrection`, `need`, and its variant of the same tokenizer, which
  additionally pushes a single black `' '` part before every marked part
  when `parts.length` is nonzero.
* `src/backend/repository.js` — `deleteDocument` (better-sqlite3 and lowdb
  variants) and `getDocuments` pagination.
* `src/unnamed/part_003` — the `POST /api/exercises/generate` retry loop.

Strings are modelled as `List Char`; page coordinates as exact rationals;
font metrics (`pdf.getTextWidth`, `doc.widthOfString`) as an abstract
width function `wOf : List Char → ℚ`.
-/

namespace TelcWrite

/-- Characters that the JS regex `.` does not match (line terminators):
`\n`, `\r`, U+2028, U+2029. -/
def lineTerm (c : Char) : Bool :=
  c = '\n' || c = '\r' || c.val = 0x2028 || c.val = 0x2029

/-- Kind of a tokenized span: plain text, a `--...--` deletion,
or a `++...++` addition. -/
inductive Kind where
  | unmarked
  | deleted
  | added
deriving DecidableEq, Repr

/-- The two delimiter characters of the `--X--` / `++X++` spans. -/
def delim : Kind → List Char
  | Kind.deleted => ['-', '-']
  | Kind.added => ['+', '+']
  | Kind.unmarked => []

/-- Scan for the earliest closing pair `d d`, as the non-greedy `(.*?)--`
(resp. `(.*?)\+\+`) does: the span content may not contain a line
terminator, and the first adjacent pair of delimiter characters closes the
span.  Returns the span content and the remainder after the closing pair
(with the proof that the remainder is shorter than the input). -/
def findClose (d : Char) : (l : List Char) →
    Option (List Char × { rest : List Char // rest.length < l.length })
  | [] => none
  | c :: cs =>
    if c = d ∧ cs.head? = some d then
      some ([], ⟨cs.tail, by simp [List.length_tail]; omega⟩)
    else if lineTerm c then none
    else
      match findClose d cs with
      | some (ct, ⟨rest, h⟩) => some (c :: ct, ⟨rest, by simp; omega⟩)
      | none => none

/-- Helper for `findMatch`: a failed match attempt at the current character
moves the scan one character to the right, prepending that character to the
unmatched prefix. -/
def consMatch (c : Char) {cs : List Char} :
    Option (List Char × Kind × List Char ×
      { rest : List Char // rest.length < cs.length }) →
    Option (List Char × Kind × List Char ×
      { rest : List Char // rest.length < (c :: cs).length })
  | none => none
  | some (b, k, ct, ⟨rest, h⟩) => some (c :: b, k, ct, ⟨rest, by simp; omega⟩)

/-- Leftmost match of the global diff-marker regex (alternation of
`--(.*?)--` and `++(.*?)++`):
returns the text before the match, the span kind, the span content, and the
text after the whole match, or `none` when the regex does not match. -/
def findMatch : (l : List Char) →
    Option (List Char × Kind × List Char ×
      { rest : List Char // rest.length < l.length })
  | [] => none
  | c :: cs =>
    if c = '-' ∧ cs.head? = some '-' then
      match findClose '-' cs.tail with
      | some (ct, ⟨rest, h⟩) =>
        some ([], Kind.deleted, ct,
          ⟨rest, by have := cs.length_tail; simp at h ⊢; omega⟩)
      | none => consMatch c (findMatch cs)
    else if c = '+' ∧ cs.head? = some '+' then
      match findClose '+' cs.tail with
      | some (ct, ⟨rest, h⟩) =>
        some ([], Kind.added, ct,
          ⟨rest, by have := cs.length_tail; simp at h ⊢; omega⟩)
      | none => consMatch c (findMatch cs)
    else consMatch c (findMatch cs)

/-- `true` when the list contains two adjacent occurrences of `d`
(so a closing delimiter pair could be found inside it). -/
def hasPair (d : Char) : List Char → Bool
  | [] => false
  | [_] => false
  | a :: b :: rest => (a = d && b = d) || hasPair d (b :: rest)

namespace Server

/-- Colors of `src/unnamed/part_001`. -/
def BLACK : String := "#212529"

/-- Deletion color of `src/unnamed/part_001`. -/
def RED : String := "#dc2626"

/-- Addition color of `src/unnamed/part_001`. -/
def GREEN : String := "#16a34a"

/-- A segment pushed by `renderCorrection` (part_001):
`{ t, color }`, `{ t, color: RED, strike: true }` or
`{ t, color: GREEN, bold: true }`. -/
structure Seg where
  t : List Char
  color : String
  strike : Bool := false
  bold : Bool := false
deriving DecidableEq, Repr

/-- The segment pushed for a regex match of the given kind. -/
def segOf : Kind → List Char → Seg
  | Kind.deleted, ct => { t := ct, color := RED, strike := true }
  | Kind.added, ct => { t := ct, color := GREEN, bold := true }
  | Kind.unmarked, ct => { t := ct, color := BLACK }

/-- Fuel-indexed tokenizer of `renderCorrection` (part_001, lines 134-142):
repeatedly take the leftmost regex match, pushing the text before it as a
black segment (only when nonempty), the match content as a red/green
segment, and finally the trailing text as a black segment. -/
def tokenizeF : ℕ → List Char → List Seg
  | 0, _ => []
  | fuel + 1, s =>
    match findMatch s with
    | none => if s = [] then [] else [{ t := s, color := BLACK }]
    | some (before, k, ct, rest) =>
      (if before = [] then [] else [{ t := before, color := BLACK }]) ++
        segOf k ct :: tokenizeF fuel rest.val

/-- The part_001 segment tokenizer (the fuel `s.length` always suffices,
see `tokenizeF_congr`). -/
def tokenize (s : List Char) : List Seg := tokenizeF s.length s

/-- Re-insert the delimiter markers around a segment according to its
style, as the round-trip property of the spec (§8) describes. -/
def reassembleSeg (s : Seg) : List Char :=
  if s.color = RED then '-' :: '-' :: (s.t ++ ['-', '-'])
  else if s.color = GREEN then '+' :: '+' :: (s.t ++ ['+', '+'])
  else s.t

/-- Concatenation of all segment texts with delimiters re-inserted. -/
def reassemble (l : List Seg) : List Char := (l.map reassembleSeg).flatten

/-- Page margin of part_001, in points: `const M = 68`. -/
def M : ℚ := 68

/-- Line height of `renderCorrection` (part_001):
`const fontSize = 9; const lineHeight = fontSize * 1.4`. -/
def lineHeight : ℚ := 9 * 1.4

end Server

/-- Whitespace characters of the JS `\s` class that are not line
terminators of the split (space, tab, carriage return, vertical tab, form
feed, NBSP); both renderers split lines on `'\n'` only, so `'\r'` is just
whitespace to them. -/
def wsChar (c : Char) : Bool :=
  c = ' ' || c = '\t' || c = '\r' || c.val = 0x0b || c.val = 0x0c ||
    c.val = 0xa0

/-- A renderable unit of a segment: a forced newline, or a chunk that is
either a maximal run of (non-newline) whitespace or a maximal run of
non-whitespace (both are drawn and advance the cursor, exactly as the
empty-filtered results of `split(/(\n)/)` then `split(/(\s+)/)` are). -/
inductive Tok where
  | newline
  | word (t : List Char)
deriving DecidableEq, Repr

mutual

/-- Continue the current chunk (of whitespace class `cls`, accumulated in
reverse in `acc`) through the remaining characters. -/
def toksGo (cls : Bool) (acc : List Char) : List Char → List Tok
  | [] => [Tok.word acc.reverse]
  | c :: cs =>
    if c = '\n' then Tok.word acc.reverse :: Tok.newline :: toksStart cs
    else if wsChar c = cls then toksGo cls (c :: acc) cs
    else Tok.word acc.reverse :: toksGo (wsChar c) [c] cs

/-- Split a segment text into the token stream the renderers walk:
newline characters become forced line breaks, everything else is grouped
into maximal same-class chunks. -/
def toksStart : List Char → List Tok
  | [] => []
  | c :: cs =>
    if c = '\n' then Tok.newline :: toksStart cs
    else toksGo (wsChar c) [c] cs

end

/-- Layout cursor: pen position and current page index (pages are created
lazily; `page` counts how many page breaks have happened). -/
structure Cursor where
  x : ℚ
  y : ℚ
  page : ℕ
deriving DecidableEq, Repr

namespace Client

/-- `const black = [33, 37, 41]` of pdf-export.js. -/
def black : ℕ × ℕ × ℕ := (33, 37, 41)

/-- `const red = [220, 38, 38]` of pdf-export.js. -/
def red : ℕ × ℕ × ℕ := (220, 38, 38)

/-- `const green = [22, 163, 74]` of pdf-export.js. -/
def green : ℕ × ℕ × ℕ := (22, 163, 74)

/-- A colored part pushed by `wrapCorrection` (pdf-export.js): `{ t, c }`. -/
structure Part where
  t : List Char
  c : ℕ × ℕ × ℕ
deriving DecidableEq, Repr

/-- Color for a matched span: red for deletions, green for additions. -/
def colorOf : Kind → ℕ × ℕ × ℕ
  | Kind.deleted => red
  | Kind.added => green
  | Kind.unmarked => black

/-- Fuel-indexed part builder of `wrapCorrection` (pdf-export.js, lines
54-62).  Differs from the part_001 tokenizer in one way: before pushing a
red or green part it pushes a single black `' '` part whenever `parts` is
already nonempty (`if (parts.length) parts.push({ t: ' ', c: black })`).
The flag `ne` records whether `parts` is nonempty so far. -/
def partsF : ℕ → List Char → Bool → List Part
  | 0, _, _ => []
  | fuel + 1, s, ne =>
    match findMatch s with
    | none => if s = [] then [] else [⟨s, black⟩]
    | some (before, k, ct, rest) =>
      (if before = [] then [] else [⟨before, black⟩]) ++
        (if ne || !(before.isEmpty) then [⟨[' '], black⟩] else []) ++
        ⟨ct, colorOf k⟩ :: partsF fuel rest.val true

/-- The pdf-export.js part builder, starting from an empty `parts` array. -/
def parts (s : List Char) : List Part := partsF s.length s false

/-- Re-insert the delimiter markers around a part according to its color. -/
def reassemblePart (p : Part) : List Char :=
  if p.c = red then '-' :: '-' :: (p.t ++ ['-', '-'])
  else if p.c = green then '+' :: '+' :: (p.t ++ ['+', '+'])
  else p.t

/-- Concatenation of all part texts with delimiters re-inserted. -/
def reassembleParts (l : List Part) : List Char :=
  (l.map reassemblePart).flatten

/-- Page margin of pdf-export.js, in millimetres: `const M = 24`.
Page width `W` and height `H` come from the jsPDF A4 page object and stay
parameters of the model. -/
def M : ℚ := 24

/-- `const CW = W - M * 2`: printable line width. -/
def CW (W : ℚ) : ℚ := W - M * 2

/-- `function need(h) { if (y + h > H - M) { pdf.addPage(); y = M; } }`:
start a new page (resetting the pen to the top margin) when fewer than `h`
units remain above the bottom margin. -/
def need (H h : ℚ) (st : Cursor) : Cursor :=
  if st.y + h > H - M then { st with y := M, page := st.page + 1 } else st

/-- The newline handler of `wrapCorrection` (line 70), also reused for
word wrap (line 74): `y += leading; need(leading + 1); x = M;`. -/
def lineBreak (H leading : ℚ) (st : Cursor) : Cursor :=
  let st1 := need H (leading + 1) { st with y := st.y + leading }
  { st1 with x := M }

/-- A text placement emitted by `pdf.text(word, x, y)` under the current
fill color.  pdf-export.js keeps the font `'helvetica', 'normal'` for the
whole correction and never styles bold or strikethrough. -/
structure Placement where
  t : List Char
  x : ℚ
  y : ℚ
  page : ℕ
  c : ℕ × ℕ × ℕ
deriving DecidableEq, Repr

/-- Place one word chunk (pdf-export.js lines 71-77): measure it, wrap to
a fresh line when the pen is past the left margin and the chunk would
overflow the right margin strictly, then draw at the pen position and
advance the pen by the measured width. -/
def placeWord (W H leading : ℚ) (wOf : List Char → ℚ) (st : Cursor)
    (t : List Char) (c : ℕ × ℕ × ℕ) : Cursor × Placement :=
  let w := wOf t
  let st1 := if st.x > M ∧ st.x + w > M + CW W then lineBreak H leading st
    else st
  ({ st1 with x := st1.x + w }, ⟨t, st1.x, st1.y, st1.page, c⟩)

/-- One token of the stream: a newline forces a line break (drawing
nothing); a word chunk is placed. -/
def layoutStep (W H leading : ℚ) (wOf : List Char → ℚ) (st : Cursor) :
    Tok × (ℕ × ℕ × ℕ) → Cursor × List Placement
  | (Tok.newline, _) => (lineBreak H leading st, [])
  | (Tok.word t, c) =>
    let r := placeWord W H leading wOf st t c
    (r.1, [r.2])

/-- Walk the token stream, threading the cursor. -/
def layout (W H leading : ℚ) (wOf : List Char → ℚ) :
    Cursor → List (Tok × (ℕ × ℕ × ℕ)) → Cursor × List Placement
  | st, [] => (st, [])
  | st, tk :: tks =>
    let r := layoutStep W H leading wOf st tk
    let r2 := layout W H leading wOf r.1 tks
    (r2.1, r.2 ++ r2.2)

/-- The token stream of `wrapCorrection`: each part contributes its chunk
tokens tagged with the part's color. -/
def stream (ps : List Part) : List (Tok × (ℕ × ℕ × ℕ)) :=
  (ps.map (fun p => (toksStart p.t).map (fun tk => (tk, p.c)))).flatten

/-- `wrapCorrection(str, size, leading)` of pdf-export.js: parse the
marked-up string into colored parts, then render word by word from the
incoming vertical position `y0`, starting at the left margin with an
initial `need(leading + 1)`.  Returns the placements (the trailing
`y += leading` only moves the cursor for subsequent sections). -/
def wrapCorrection (W H leading : ℚ) (wOf : List Char → ℚ) (y0 : ℚ)
    (s : List Char) : List Placement :=
  if s = [] then []
  else
    let st0 := need H (leading + 1) { x := M, y := y0, page := 0 }
    (layout W H leading wOf st0 (stream (parts s))).2

end Client

namespace Server

/-- `function checkPage(doc, needed)` (part_001, lines 181-186): add a new
page when fewer than `needed` points remain above the bottom margin; the
new PDFKit page puts the pen back at the top margin. -/
def checkPage (H : ℚ) (st : Cursor) (needed : ℚ) : Cursor :=
  if st.y + needed > H - M then { st with y := M, page := st.page + 1 }
  else st

/-- The line-break sequence of `renderCorrection` (used both for an
embedded newline, lines 154-158, and for word wrap, lines 165-169):
`x = M; doc.y += lineHeight; checkPage(doc, lineHeight + 2);`. -/
def lineBreakK (H : ℚ) (st : Cursor) : Cursor :=
  checkPage H { st with x := M, y := st.y + lineHeight } (lineHeight + 2)

/-- A `doc.text(word, x, doc.y, { lineBreak: false, continued: false })`
call of `renderCorrection` under the current font and fill color.
`strike` records whether the call's options request a strikethrough: the
options object passed by part_001 line 170 never contains `strike`, so the
renderer always emits `strike := false` even for deleted segments (whose
`Seg.strike` field is `true` but is never read back). -/
structure PlacementK where
  t : List Char
  x : ℚ
  y : ℚ
  page : ℕ
  color : String
  bold : Bool
  strike : Bool
deriving DecidableEq, Repr

/-- One token of the per-segment stream of `renderCorrection`: a newline
(line index `li > 0`) triggers the break sequence; a word chunk is
measured, wrapped on strict overflow when not at the left margin, and
drawn. -/
def stepK (H CW : ℚ) (wOf : List Char → ℚ) (st : Cursor) :
    Tok × Seg → Cursor × List PlacementK
  | (Tok.newline, _) => (lineBreakK H st, [])
  | (Tok.word t, seg) =>
    let w := wOf t
    let st1 := if st.x > M ∧ st.x + w > M + CW then lineBreakK H st else st
    ({ st1 with x := st1.x + w },
      [⟨t, st1.x, st1.y, st1.page, seg.color, seg.bold, false⟩])

/-- Walk the segment-token stream, threading the cursor. -/
def layoutK (H CW : ℚ) (wOf : List Char → ℚ) :
    Cursor → List (Tok × Seg) → Cursor × List PlacementK
  | st, [] => (st, [])
  | st, tk :: tks =>
    let r := stepK H CW wOf st tk
    let r2 := layoutK H CW wOf r.1 tks
    (r2.1, r.2 ++ r2.2)

/-- `renderCorrection(doc, text, pageWidth)` of part_001: tokenize the
marked-up text into styled segments, then render word by word from the
incoming `doc.y = y0`, starting at `x = M` with no initial page check.
Returns the placements (the trailing `doc.y += lineHeight; doc.x = M`
only moves the cursor). -/
def renderCorrection (H pageWidth : ℚ) (wOf : List Char → ℚ) (y0 : ℚ)
    (text : List Char) : List PlacementK :=
  let CW := pageWidth - M * 2
  let segs := tokenize text
  let stream :=
    (segs.map (fun seg => (toksStart seg.t).map (fun tk => (tk, seg)))).flatten
  (layoutK H CW wOf ⟨M, y0, 0⟩ stream).2

end Server

/-! ### Storage collaborators (src/backend/repository.js) -/

namespace Repo

/-- A row of the `documents` table / array. -/
structure Document where
  id : String
  title : String
  creationDate : String
deriving DecidableEq, Repr

/-- A row of the `contents` table / array. -/
structure Content where
  documentId : String
  task : String
  submissionText : String
  reviewScore : Option Int
  reviewFeedback : String
  correction : String
deriving DecidableEq, Repr

/-- The whole datastore. -/
structure Store where
  documents : List Document
  contents : List Content
deriving DecidableEq, Repr

/-- Error code `DOCUMENT_NOT_FOUND` of repository.js. -/
def DOCUMENT_NOT_FOUND : String := "DOCUMENT_NOT_FOUND"

/-- Error code `DUPLICATE_DOCUMENT` of repository.js. -/
def DUPLICATE_DOCUMENT : String := "DUPLICATE_DOCUMENT"

/-- `deleteDocument(id)` of the better-sqlite3 repository (repository.js
lines 103-116): a `SELECT` checks existence first and throws
`DOCUMENT_NOT_FOUND` before any row is touched; otherwise a transaction
runs `DELETE FROM contents WHERE documentId = ?` and
`DELETE FROM documents WHERE id = ?`.  Returns the error code (with the
unchanged store) or the updated store. -/
def deleteDocument (st : Store) (id : String) : Option String × Store :=
  if (st.documents.find? (fun d => d.id == id)).isNone then
    (some DOCUMENT_NOT_FOUND, st)
  else
    (none,
      { documents := st.documents.filter (fun d => !(d.id == id)),
        contents := st.contents.filter (fun c => !(c.documentId == id)) })

/-- `deleteDocument(id)` of the lowdb repository (repository.js lines
283-303): find the document's index (throwing when absent), `splice` it
out, then `splice` out the first content whose `documentId` matches (the
spliced document's id equals `id` by the search predicate). -/
def deleteDocumentLow (st : Store) (id : String) : Option String × Store :=
  match st.documents.findIdx? (fun d => d.id == id) with
  | none => (some DOCUMENT_NOT_FOUND, st)
  | some docIndex =>
    let documents := st.documents.eraseIdx docIndex
    let contents :=
      match st.contents.findIdx? (fun c => c.documentId == id) with
      | some contentIndex => st.contents.eraseIdx contentIndex
      | none => st.contents
    (none, { documents := documents, contents := contents })

/-- Insert into a list already sorted newest-first, keeping it sorted
(creation dates modelled as naturals; `sort` compares
`new Date(b) - new Date(a)`). -/
def insertDesc (key : Document → ℕ) (d : Document) :
    List Document → List Document
  | [] => [d]
  | a :: l => if key a ≤ key d then d :: a :: l else a :: insertDesc key d l

/-- Sort documents newest-first. -/
def sortDesc (key : Document → ℕ) : List Document → List Document
  | [] => []
  | a :: l => insertDesc key a (sortDesc key l)

/-- The pagination result of `getDocuments`. -/
structure PageResult where
  documents : List Document
  page : ℤ
  limit : ℕ
  totalItems : ℕ
  totalPages : ℕ
deriving DecidableEq, Repr

/-- `getDocuments({ page = 1, limit = 5 })` (repository.js lines 50-66 and
227-239): count the rows, compute
`totalPages = Math.max(1, Math.ceil(totalItems / limit))`, clamp the
requested page into `[1, totalPages]`, and return the corresponding slice
(at most `limit` rows, newest first).  `page` may be any integer; `limit`
is a positive count (the route clamps it into `[1, 100]`). -/
def getDocuments (key : Document → ℕ) (docs : List Document) (page : ℤ)
    (limit : ℕ) : PageResult :=
  let allDocuments := sortDesc key docs
  let totalItems := allDocuments.length
  let totalPages := max 1 ((totalItems + limit - 1) / limit)
  let safePage := max 1 (min page (totalPages : ℤ))
  let start := ((safePage - 1) * (limit : ℤ)).toNat
  { documents := (allDocuments.drop start).take limit,
    page := safePage, limit := limit, totalItems := totalItems,
    totalPages := totalPages }

end Repo

/-! ### Exercise generation flow (src/unnamed/part_003, lines 104-130) -/

namespace Flow

/-- Outcome of one `repository.createDocument(title)` call inside the
generation loop (the title of attempt `i` is freshly produced by
`openai.generateExercise`, so outcomes are indexed by attempt). -/
inductive CreateOutcome where
  | ok (documentId : String)
  | duplicate
  | otherError
deriving DecidableEq, Repr

/-- The HTTP-level result of `POST /api/exercises/generate`. -/
inductive GenResult where
  | success (documentId : String)
  | conflict409
  | error500
deriving DecidableEq, Repr

/-- `const MAX_RETRIES = 3` of part_003. -/
def MAX_RETRIES : ℕ := 3

/-- The retry loop
`for (let attempt = 0; attempt < MAX_RETRIES; attempt++)`: a successful
`createDocument` answers the request; a `DUPLICATE_DOCUMENT` error
continues with the next attempt; any other error propagates to the outer
catch (HTTP 500); exhausting the loop answers HTTP 409.  Returns the
result together with the number of `createDocument` calls made. -/
def genLoop (outcomes : ℕ → CreateOutcome) :
    ℕ → ℕ → GenResult × ℕ
  | 0, attempt => (GenResult.conflict409, attempt)
  | remaining + 1, attempt =>
    match outcomes attempt with
    | CreateOutcome.ok id => (GenResult.success id, attempt + 1)
    | CreateOutcome.duplicate => genLoop outcomes remaining (attempt + 1)
    | CreateOutcome.otherError => (GenResult.error500, attempt + 1)

/-- The whole generation flow: run the loop for `MAX_RETRIES` attempts
starting at attempt 0. -/
def generateExercise (outcomes : ℕ → CreateOutcome) : GenResult × ℕ :=
  genLoop outcomes MAX_RETRIES 0

end Flow

/-- Projection of `findMatch` dropping the length certificate: the
unmatched prefix, the kind, the content, and the rest as plain lists. -/
def findMatchP (l : List Char) :
    Option (List Char × Kind × List Char × List Char) :=
  (findMatch l).map (fun r => (r.1, r.2.1, r.2.2.1, r.2.2.2.val))

/-- A concrete font metric for witnesses: one unit per character. -/
def wLen : List Char → ℚ := fun t => (t.length : ℚ)

/-- A concrete font metric for witnesses: ten units per character. -/
def wTen : List Char → ℚ := fun t => (t.length : ℚ) * 10

end TelcWrite

/-! ## Theorems -/

namespace TelcWrite

/-- `findClose` returns a decomposition of its input: the content followed
by the closing delimiter pair and the rest. -/
theorem findClose_sound (d : Char) :
    ∀ (l ct : List Char) (rest : { r : List Char // r.length < l.length }),
      findClose d l = some (ct, rest) → l = ct ++ d :: d :: rest.val := by
  intro l
  induction l with
  | nil => intro ct rest h; simp [findClose] at h
  | cons c cs ih =>
    intro ct rest h
    simp only [findClose] at h
    by_cases h1 : c = d ∧ cs.head? = some d
    · rw [if_pos h1] at h
      obtain ⟨hc, hh⟩ := h1
      simp only [Option.some.injEq, Prod.mk.injEq] at h
      obtain ⟨hctq, h2⟩ := h
      have hval : rest.val = cs.tail := by rw [← h2]
      subst hc
      cases cs with
      | nil => simp at hh
      | cons a as =>
        simp only [List.head?] at hh
        injection hh with ha
        subst ha
        simp [← hctq, hval]
    · rw [if_neg h1] at h
      by_cases h2 : lineTerm c = true
      · rw [if_pos h2] at h; simp at h
      · rw [if_neg h2] at h
        cases hm : findClose d cs with
        | none => rw [hm] at h; simp at h
        | some pr =>
          obtain ⟨ct2, r2, hr2⟩ := pr
          rw [hm] at h
          simp only [Option.some.injEq, Prod.mk.injEq] at h
          obtain ⟨hctq, hrq⟩ := h
          have hval : rest.val = r2 := by rw [← hrq]
          have hcs : cs = ct2 ++ d :: d :: r2 := ih ct2 ⟨r2, hr2⟩ hm
          simp [← hctq, hval, hcs]

/-- Inversion for `consMatch`: a successful result comes from a successful
inner match, with the scanned character prepended to the prefix. -/
theorem consMatch_some {c : Char} {cs : List Char}
    {o : Option (List Char × Kind × List Char ×
      { r : List Char // r.length < cs.length })}
    {b : List Char} {k : Kind} {ct : List Char}
    {rest : { r : List Char // r.length < (c :: cs).length }}
    (h : consMatch c o = some (b, k, ct, rest)) :
    ∃ b2, ∃ r2 : { r : List Char // r.length < cs.length },
      o = some (b2, k, ct, r2) ∧ b = c :: b2 ∧ rest.val = r2.val := by
  cases o with
  | none => simp [consMatch] at h
  | some pr =>
    obtain ⟨b2, k2, ct2, r2, hr2⟩ := pr
    simp only [consMatch, Option.some.injEq, Prod.mk.injEq] at h
    obtain ⟨hb, hk, hct, hrest⟩ := h
    exact ⟨b2, ⟨r2, hr2⟩, by simp [hk, hct], hb.symm, by rw [← hrest]⟩

/-- `findMatch` returns a decomposition of its input: the unmatched prefix,
the opening delimiter, the span content, the closing delimiter, the rest. -/
theorem findMatch_sound :
    ∀ (l b : List Char) (k : Kind) (ct : List Char)
      (rest : { r : List Char // r.length < l.length }),
      findMatch l = some (b, k, ct, rest) →
      l = b ++ delim k ++ ct ++ delim k ++ rest.val := by
  intro l
  induction l with
  | nil => intro b k ct rest h; simp [findMatch] at h
  | cons c cs ih =>
    intro b k ct rest h
    simp only [findMatch] at h
    by_cases hd : c = '-' ∧ cs.head? = some '-'
    · rw [if_pos hd] at h
      obtain ⟨hc, hh⟩ := hd
      cases hm : findClose '-' cs.tail with
      | none =>
        rw [hm] at h
        obtain ⟨b2, r2, ho, hb, hval⟩ := consMatch_some h
        have hcs := ih b2 k ct r2 ho
        simp [hb, hval, hcs]
      | some pr =>
        obtain ⟨ct2, r2, hr2⟩ := pr
        rw [hm] at h
        simp only [Option.some.injEq, Prod.mk.injEq] at h
        obtain ⟨h1, h2, h3, h4⟩ := h
        have hval : rest.val = r2 := by rw [← h4]
        have htl : cs.tail = ct2 ++ '-' :: '-' :: r2 :=
          findClose_sound '-' cs.tail ct2 ⟨r2, hr2⟩ hm
        subst hc
        cases cs with
        | nil => simp at hh
        | cons a as =>
          simp only [List.head?] at hh
          injection hh with ha
          subst ha
          simp only [List.tail] at htl
          simp [← h1, ← h2, ← h3, hval, htl, delim]
    · rw [if_neg hd] at h
      by_cases hp : c = '+' ∧ cs.head? = some '+'
      · rw [if_pos hp] at h
        obtain ⟨hc, hh⟩ := hp
        cases hm : findClose '+' cs.tail with
        | none =>
          rw [hm] at h
          obtain ⟨b2, r2, ho, hb, hval⟩ := consMatch_some h
          have hcs := ih b2 k ct r2 ho
          simp [hb, hval, hcs]
        | some pr =>
          obtain ⟨ct2, r2, hr2⟩ := pr
          rw [hm] at h
          simp only [Option.some.injEq, Prod.mk.injEq] at h
          obtain ⟨h1, h2, h3, h4⟩ := h
          have hval : rest.val = r2 := by rw [← h4]
          have htl : cs.tail = ct2 ++ '+' :: '+' :: r2 :=
            findClose_sound '+' cs.tail ct2 ⟨r2, hr2⟩ hm
          subst hc
          cases cs with
          | nil => simp at hh
          | cons a as =>
            simp only [List.head?] at hh
            injection hh with ha
            subst ha
            simp only [List.tail] at htl
            simp [← h1, ← h2, ← h3, hval, htl, delim]
      · rw [if_neg hp] at h
        obtain ⟨b2, r2, ho, hb, hval⟩ := consMatch_some h
        have hcs := ih b2 k ct r2 ho
        simp [hb, hval, hcs]

/-- The fuel of `tokenizeF` is irrelevant once it is at least the input
length. -/
theorem tokenizeF_congr :
    ∀ f1 f2 (s : List Char), s.length ≤ f1 → s.length ≤ f2 →
      Server.tokenizeF f1 s = Server.tokenizeF f2 s := by
  intro f1
  induction f1 with
  | zero =>
    intro f2 s h1 h2
    have hs : s = [] := List.length_eq_zero.mp (Nat.le_zero.mp h1)
    subst hs
    cases f2 <;> simp [Server.tokenizeF, findMatch]
  | succ f ih =>
    intro f2 s h1 h2
    cases f2 with
    | zero =>
      have hs : s = [] := List.length_eq_zero.mp (Nat.le_zero.mp h2)
      subst hs
      simp [Server.tokenizeF, findMatch]
    | succ g =>
      simp only [Server.tokenizeF]
      cases hm : findMatch s with
      | none => rfl
      | some r =>
        obtain ⟨b, k, ct, rest⟩ := r
        have hr := rest.2
        dsimp only
        rw [ih g rest.val (by omega) (by omega)]

/-- Unfolding `tokenize` when the regex does not match. -/
theorem tokenize_none {s : List Char} (h : findMatch s = none) :
    Server.tokenize s =
      if s = [] then [] else [⟨s, Server.BLACK, false, false⟩] := by
  cases s with
  | nil => rfl
  | cons c cs => simp [Server.tokenize, Server.tokenizeF, h]

/-- Unfolding `tokenize` at a regex match. -/
theorem tokenize_some {s b : List Char} {k : Kind} {ct : List Char}
    {rest : { r : List Char // r.length < s.length }}
    (h : findMatch s = some (b, k, ct, rest)) :
    Server.tokenize s =
      (if b = [] then [] else [⟨b, Server.BLACK, false, false⟩]) ++
        Server.segOf k ct :: Server.tokenize rest.val := by
  cases s with
  | nil => simp [findMatch] at h
  | cons c cs =>
    have hr := rest.2
    simp only [Server.tokenize, List.length_cons, Server.tokenizeF, h]
    rw [tokenizeF_congr cs.length rest.val.length rest.val
      (by simpa using Nat.lt_succ_iff.mp (by simpa using hr)) le_rfl]

/-- `reassemble` distributes over append. -/
theorem reassemble_append (l1 l2 : List Server.Seg) :
    Server.reassemble (l1 ++ l2) =
      Server.reassemble l1 ++ Server.reassemble l2 := by
  simp [Server.reassemble]

/-- `reassemble` on a cons. -/
theorem reassemble_cons (a : Server.Seg) (l : List Server.Seg) :
    Server.reassemble (a :: l) =
      Server.reassembleSeg a ++ Server.reassemble l := by
  simp [Server.reassemble]

/-- Re-inserting the markers around the segment of a match restores the
matched text. -/
theorem reassembleSeg_segOf (k : Kind) (ct : List Char) :
    Server.reassembleSeg (Server.segOf k ct) = delim k ++ ct ++ delim k := by
  cases k <;>
    simp [Server.segOf, Server.reassembleSeg, delim, Server.RED,
      Server.GREEN, Server.BLACK]

/-- A black segment reassembles to its own text. -/
theorem reassembleSeg_black (t : List Char) :
    Server.reassembleSeg ⟨t, Server.BLACK, false, false⟩ = t := by
  simp [Server.reassembleSeg, Server.RED, Server.GREEN, Server.BLACK]

/-- Round-trip, by strong induction on the input length. -/
theorem reassemble_tokenize :
    ∀ n (s : List Char), s.length ≤ n →
      Server.reassemble (Server.tokenize s) = s := by
  intro n
  induction n with
  | zero =>
    intro s h
    have hs : s = [] := List.length_eq_zero.mp (Nat.le_zero.mp h)
    subst hs; rfl
  | succ n ih =>
    intro s h
    cases hm : findMatch s with
    | none =>
      rw [tokenize_none hm]
      by_cases hs : s = []
      · subst hs; rfl
      · rw [if_neg hs]
        simpa [Server.reassemble] using reassembleSeg_black s
    | some r =>
      obtain ⟨b, k, ct, rest⟩ := r
      have hdecomp := findMatch_sound s b k ct rest hm
      have hr := rest.2
      rw [tokenize_some hm, reassemble_append, reassemble_cons,
        reassembleSeg_segOf, ih rest.val (by omega)]
      by_cases hb : b = []
      · subst hb
        simp only [if_pos rfl]
        simpa using hdecomp.symm
      · rw [if_neg hb]
        have : Server.reassemble [⟨b, Server.BLACK, false, false⟩] = b := by
          simpa [Server.reassemble] using reassembleSeg_black b
        rw [this]
        simpa using hdecomp.symm

/-- C1 (amended): for every input string, concatenating the `text` of the
segments produced by the part_001 tokenizer in source order, with the
`--`/`++` markers re-inserted around red (deleted) and green (added)
segments, reproduces the input byte-for-byte. -/
theorem c1_roundtrip_server (s : List Char) :
    Server.reassemble (Server.tokenize s) = s :=
  reassemble_tokenize s.length s le_rfl

/-- Unfolding `parts` when the regex does not match (the pdf-export.js
variant behaves like part_001 in this case). -/
theorem parts_none {s : List Char} (h : findMatch s = none) :
    Client.parts s = if s = [] then [] else [⟨s, Client.black⟩] := by
  cases s with
  | nil => rfl
  | cons c cs => simp [Client.parts, Client.partsF, h]

/-- A list without an adjacent pair admits no closing delimiter scan. -/
theorem hasPair_cons {d c : Char} {cs : List Char}
    (h : hasPair d (c :: cs) = false) :
    ¬(c = d ∧ cs.head? = some d) ∧ hasPair d cs = false := by
  cases cs with
  | nil => simp [hasPair]
  | cons b rest =>
    simp only [hasPair, Bool.or_eq_false_iff, Bool.and_eq_false_iff] at h
    constructor
    · rintro ⟨hc, hh⟩
      subst hc
      simp only [List.head?, Option.some.injEq] at hh
      rcases h.1 with h1 | h1 <;> simp [hh] at h1
    · exact h.2

/-- Without an adjacent delimiter pair, `findClose` fails. -/
theorem findClose_none (d : Char) :
    ∀ l, hasPair d l = false → findClose d l = none := by
  intro l
  induction l with
  | nil => intro h; rfl
  | cons c cs ih =>
    intro h
    obtain ⟨hnc, htail⟩ := hasPair_cons h
    simp only [findClose]
    rw [if_neg hnc]
    by_cases hl : lineTerm c = true
    · rw [if_pos hl]
    · rw [if_neg hl, ih htail]

/-- Without adjacent `--` or `++` pairs, the regex does not match. -/
theorem findMatch_none :
    ∀ l, hasPair '-' l = false → hasPair '+' l = false →
      findMatch l = none := by
  intro l
  induction l with
  | nil => intro h1 h2; rfl
  | cons c cs ih =>
    intro h1 h2
    obtain ⟨hnd, hd⟩ := hasPair_cons h1
    obtain ⟨hnp, hp⟩ := hasPair_cons h2
    simp only [findMatch]
    rw [if_neg hnd, if_neg hnp, ih hd hp]
    rfl

/-- A cons step of `findMatch` when neither delimiter opens here. -/
theorem findMatch_cons_noopen (c : Char) (cs : List Char)
    (hnd : ¬(c = '-' ∧ cs.head? = some '-'))
    (hnp : ¬(c = '+' ∧ cs.head? = some '+')) :
    findMatch (c :: cs) = consMatch c (findMatch cs) := by
  simp only [findMatch]
  rw [if_neg hnd, if_neg hnp]

/-- A cons step of `findMatch` when `--` opens but never closes. -/
theorem findMatch_cons_dashfail (cs : List Char)
    (hh : cs.head? = some '-') (hcl : findClose '-' cs.tail = none) :
    findMatch ('-' :: cs) = consMatch '-' (findMatch cs) := by
  simp only [findMatch, hh, hcl]
  simp

/-- A cons step of `findMatch` when `++` opens but never closes. -/
theorem findMatch_cons_plusfail (cs : List Char)
    (hh : cs.head? = some '+') (hcl : findClose '+' cs.tail = none) :
    findMatch ('+' :: cs) = consMatch '+' (findMatch cs) := by
  simp only [findMatch, hh, hcl]
  simp

/-- `findClose` succeeds exactly at the first delimiter pair when the
content before it contains neither the delimiter nor a line terminator. -/
theorem findClose_prefixP (d : Char) :
    ∀ (u w : List Char), d ∉ u → (∀ c ∈ u, lineTerm c = false) →
      (findClose d (u ++ d :: d :: w)).map (fun r => (r.1, r.2.val)) =
        some (u, w) := by
  intro u
  induction u with
  | nil =>
    intro w _ _
    simp only [List.nil_append, findClose]
    split
    · rfl
    · next hcond => exact absurd ⟨trivial, rfl⟩ hcond
  | cons c u2 ih =>
    intro w hd hlt
    have hc : ¬c = d := by
      intro hc; exact hd (by simp [hc])
    have hlc : lineTerm c = false := hlt c (by simp)
    have ih2 := ih w (fun hm => hd (by simp [hm]))
      (fun a ha => hlt a (by simp [ha]))
    simp only [List.cons_append, findClose]
    rw [if_neg (by rintro ⟨h, _⟩; exact hc h), if_neg (by simp [hlc])]
    cases hm : findClose d (u2 ++ d :: d :: w) with
    | none => rw [hm] at ih2; simp at ih2
    | some pr =>
      obtain ⟨ct2, r2, hr2⟩ := pr
      rw [hm] at ih2
      simp at ih2
      obtain ⟨hct, hrv⟩ := ih2
      subst hct
      simp [hrv]

/-- Unfolding `tokenize` at a regex match, via the projection. -/
theorem tokenize_someP {s b : List Char} {k : Kind} {ct rest : List Char}
    (h : findMatchP s = some (b, k, ct, rest)) :
    Server.tokenize s =
      (if b = [] then [] else [⟨b, Server.BLACK, false, false⟩]) ++
        Server.segOf k ct :: Server.tokenize rest := by
  cases hm : findMatch s with
  | none => simp [findMatchP, hm] at h
  | some pr =>
    obtain ⟨b2, k2, ct2, r2⟩ := pr
    simp only [findMatchP, hm] at h
    simp at h
    obtain ⟨rfl, rfl, rfl, hrv⟩ := h
    rw [← hrv]
    exact tokenize_some hm

/-- `findMatch` at an immediate `--` opening with a clean content. -/
theorem findMatch_dashopenP (u w : List Char) (h1 : '-' ∉ u)
    (h2 : ∀ c ∈ u, lineTerm c = false) :
    findMatchP ('-' :: '-' :: (u ++ '-' :: '-' :: w)) =
      some ([], Kind.deleted, u, w) := by
  have hp := findClose_prefixP '-' u w h1 h2
  have hex : ∃ pf,
      findClose '-' (u ++ '-' :: '-' :: w) = some (u, ⟨w, pf⟩) := by
    cases hm : findClose '-' (u ++ '-' :: '-' :: w) with
    | none => rw [hm] at hp; simp at hp
    | some pr =>
      obtain ⟨ct2, r2, hr2⟩ := pr
      rw [hm] at hp
      simp at hp
      obtain ⟨hct, hrv⟩ := hp
      subst hct
      subst hrv
      exact ⟨hr2, rfl⟩
  obtain ⟨pf, hm⟩ := hex
  simp only [findMatchP, findMatch, List.tail_cons, hm]
  split
  · rfl
  · next hcond => exact absurd ⟨by simp, by simp⟩ hcond

/-- `findMatch` at an immediate `++` opening with a clean content. -/
theorem findMatch_plusopenP (u w : List Char) (h1 : '+' ∉ u)
    (h2 : ∀ c ∈ u, lineTerm c = false) :
    findMatchP ('+' :: '+' :: (u ++ '+' :: '+' :: w)) =
      some ([], Kind.added, u, w) := by
  have hp := findClose_prefixP '+' u w h1 h2
  have hex : ∃ pf,
      findClose '+' (u ++ '+' :: '+' :: w) = some (u, ⟨w, pf⟩) := by
    cases hm : findClose '+' (u ++ '+' :: '+' :: w) with
    | none => rw [hm] at hp; simp at hp
    | some pr =>
      obtain ⟨ct2, r2, hr2⟩ := pr
      rw [hm] at hp
      simp at hp
      obtain ⟨hct, hrv⟩ := hp
      subst hct
      subst hrv
      exact ⟨hr2, rfl⟩
  obtain ⟨pf, hm⟩ := hex
  simp only [findMatchP, findMatch, List.tail_cons, hm]
  split
  · next hcond =>
    obtain ⟨hc, _⟩ := hcond
    exact absurd hc (by decide)
  · split
    · rfl
    · next hcond => exact absurd ⟨by simp, by simp⟩ hcond

/-- C6 (amended): the part_001 tokenizer maps the empty input to the empty
segment list (so does pdf-export.js); any nonempty input with no regex
match to exactly one black segment equal to the input (both variants); and
two adjacent delimited spans with no gap to adjacent red/green segments
with nothing in between (part_001 — pdf-export.js inserts an extra
single-space black part there, see the counterexample). -/
theorem c6_tokenizer_edges :
    Server.tokenize [] = [] ∧ Client.parts [] = [] ∧
    (∀ s : List Char, s ≠ [] → findMatch s = none →
      Server.tokenize s = [⟨s, Server.BLACK, false, false⟩] ∧
      Client.parts s = [⟨s, Client.black⟩]) ∧
    (∀ a b r : List Char,
      '-' ∉ a → (∀ c ∈ a, lineTerm c = false) →
      '+' ∉ b → (∀ c ∈ b, lineTerm c = false) →
      Server.tokenize
          ('-' :: '-' ::
            (a ++ '-' :: '-' :: '+' :: '+' :: (b ++ '+' :: '+' :: r))) =
        Server.segOf Kind.deleted a :: Server.segOf Kind.added b ::
          Server.tokenize r) := by
  refine ⟨rfl, rfl, ?_, ?_⟩
  · intro s hs hm
    constructor
    · rw [tokenize_none hm, if_neg hs]
    · rw [parts_none hm, if_neg hs]
  · intro a b r ha1 ha2 hb1 hb2
    have hm1 := findMatch_dashopenP a ('+' :: '+' :: (b ++ '+' :: '+' :: r))
      ha1 ha2
    have hm2 := findMatch_plusopenP b r hb1 hb2
    rw [tokenize_someP hm1]
    simp only [if_pos rfl, List.nil_append]
    rw [tokenize_someP hm2]
    simp [if_pos rfl]

/-- Witness for C6: the edge cases at concrete inputs. -/
theorem c6_tokenizer_edges_witness :
    Server.tokenize (("xy").data) =
      [⟨("xy").data, Server.BLACK, false, false⟩] ∧
    Server.tokenize
        ('-' :: '-' ::
          (['H'] ++ '-' :: '-' :: '+' :: '+' :: (['i'] ++ '+' :: '+' :: []))) =
      Server.segOf Kind.deleted ['H'] :: Server.segOf Kind.added ['i'] ::
        Server.tokenize [] := by
  constructor
  · exact (c6_tokenizer_edges.2.2.1 (("xy").data) (by decide) (by decide)).1
  · exact c6_tokenizer_edges.2.2.2 ['H'] ['i'] []
      (by decide) (by decide) (by decide) (by decide)

/-- Counterexample for C6 as frozen: the pdf-export.js variant of the
tokenizer puts a black (unmarked) single-space part between the two
adjacent delimited spans of `--a--++b++`. -/
theorem c6_cex_client_space :
    Client.parts (("--a--++b++").data) =
      [⟨['a'], Client.red⟩, ⟨[' '], Client.black⟩, ⟨['b'], Client.green⟩] ∧
    Client.black ≠ Client.red ∧ Client.black ≠ Client.green := by
  refine ⟨by decide, by decide, by decide⟩

/-- Counterexample for C1 as frozen: for the pdf-export.js variant,
re-inserting the markers around the parts of `a--b--` yields `a --b--`,
not the original input (the extra black space part breaks the
round-trip). -/
theorem c1_cex_client_roundtrip :
    Client.reassembleParts (Client.parts (("a--b--").data)) =
      ("a --b--").data ∧
    Client.reassembleParts (Client.parts (("a--b--").data)) ≠
      ("a--b--").data := by
  refine ⟨by decide, by decide⟩

/-- C7: an unterminated opening delimiter (no later adjacent delimiter
pair, and no span opening right after it) degrades to literal unmarked
text in both tokenizer variants. -/
theorem c7_unterminated (v : List Char)
    (h1 : hasPair '-' v = false) (h2 : hasPair '+' v = false)
    (h3 : v.head? ≠ some '-') (h4 : v.head? ≠ some '+') :
    Server.tokenize ('-' :: '-' :: v) =
      [⟨'-' :: '-' :: v, Server.BLACK, false, false⟩] ∧
    Server.tokenize ('+' :: '+' :: v) =
      [⟨'+' :: '+' :: v, Server.BLACK, false, false⟩] ∧
    Client.parts ('-' :: '-' :: v) = [⟨'-' :: '-' :: v, Client.black⟩] ∧
    Client.parts ('+' :: '+' :: v) = [⟨'+' :: '+' :: v, Client.black⟩] := by
  have hv : findMatch v = none := findMatch_none v h1 h2
  have hdash : findMatch ('-' :: '-' :: v) = none := by
    rw [findMatch_cons_dashfail ('-' :: v) rfl
      (by simpa using findClose_none '-' v h1)]
    rw [findMatch_cons_noopen '-' v (by rintro ⟨_, hh⟩; exact h3 hh)
      (by rintro ⟨hc, _⟩; exact absurd hc (by decide))]
    rw [hv]
    rfl
  have hplus : findMatch ('+' :: '+' :: v) = none := by
    rw [findMatch_cons_plusfail ('+' :: v) rfl
      (by simpa using findClose_none '+' v h2)]
    rw [findMatch_cons_noopen '+' v (by rintro ⟨hc, _⟩; exact absurd hc (by decide))
      (by rintro ⟨_, hh⟩; exact h4 hh)]
    rw [hv]
    rfl
  refine ⟨?_, ?_, ?_, ?_⟩
  · rw [tokenize_none hdash, if_neg (by simp)]
  · rw [tokenize_none hplus, if_neg (by simp)]
  · rw [parts_none hdash, if_neg (by simp)]
  · rw [parts_none hplus, if_neg (by simp)]

/-- Witness for C7 at the spec's example `--abc` (and `++abc`). -/
theorem c7_unterminated_witness :
    Server.tokenize (("--abc").data) =
      [⟨("--abc").data, Server.BLACK, false, false⟩] ∧
    Client.parts (("++abc").data) = [⟨("++abc").data, Client.black⟩] := by
  constructor
  · exact (c7_unterminated (("abc").data) (by decide) (by decide)
      (by decide) (by decide)).1
  · exact (c7_unterminated (("abc").data) (by decide) (by decide)
      (by decide) (by decide)).2.2.2

end TelcWrite

namespace TelcWrite

/-- After `need`, at least `h` units remain above the bottom margin,
provided a fresh page has them. -/
theorem need_bound (H h : ℚ) (st : Cursor)
    (hg : Client.M + h ≤ H - Client.M) :
    (Client.need H h st).y + h ≤ H - Client.M := by
  unfold Client.need
  split
  · simpa using hg
  · next hcond => linarith [not_lt.mp hcond]

/-- After the break sequence, a full line plus one unit still fits. -/
theorem lineBreak_bound (H leading : ℚ) (st : Cursor)
    (hg : Client.M + (leading + 1) ≤ H - Client.M) :
    (Client.lineBreak H leading st).y + (leading + 1) ≤ H - Client.M := by
  unfold Client.lineBreak
  exact need_bound H (leading + 1) _ hg

/-- The break sequence puts the pen at the left margin. -/
theorem lineBreak_x (H leading : ℚ) (st : Cursor) :
    (Client.lineBreak H leading st).x = Client.M := rfl

/-- Invariant of the wrapCorrection layout loop: if a line plus one unit
fits at the incoming position, every emitted placement keeps a full line
above the bottom margin, and every placement that is not at the left
margin fits within the right margin. -/
theorem layout_inv (W H leading : ℚ) (wOf : List Char → ℚ)
    (hg : Client.M + (leading + 1) ≤ H - Client.M) :
    ∀ (tks : List (Tok × (ℕ × ℕ × ℕ))) (st : Cursor),
      st.y + (leading + 1) ≤ H - Client.M →
      ∀ p ∈ (Client.layout W H leading wOf st tks).2,
        p.y + (leading + 1) ≤ H - Client.M ∧
        (Client.M < p.x → p.x + wOf p.t ≤ Client.M + Client.CW W) := by
  intro tks
  induction tks with
  | nil => intro st hst p hp; simp [Client.layout] at hp
  | cons tk tks ih =>
    intro st hst p hp
    obtain ⟨tok, c⟩ := tk
    cases tok with
    | newline =>
      simp only [Client.layout, Client.layoutStep, List.nil_append] at hp
      exact ih (Client.lineBreak H leading st)
        (lineBreak_bound H leading st hg) p hp
    | word t =>
      simp only [Client.layout, Client.layoutStep, Client.placeWord] at hp
      set st1 := if st.x > Client.M ∧
          st.x + wOf t > Client.M + Client.CW W then
        Client.lineBreak H leading st else st with hst1
      have h1 : st1.y + (leading + 1) ≤ H - Client.M := by
        rw [hst1]
        split
        · exact lineBreak_bound H leading st hg
        · exact hst
      have h2 : Client.M < st1.x → st1.x + wOf t ≤ Client.M + Client.CW W := by
        rw [hst1]
        split
        · next hcond =>
          intro hx
          rw [lineBreak_x] at hx
          exact absurd hx (lt_irrefl _)
        · next hcond =>
          intro hx
          rcases not_and_or.mp hcond with h | h
          · exact absurd hx (by simpa using h)
          · exact not_lt.mp h
      rcases List.mem_cons.mp hp with rfl | hp2
      · exact ⟨h1, h2⟩
      · exact ih { st1 with x := st1.x + wOf t } h1 p hp2

/-- C2 (amended): every token placed by `wrapCorrection` satisfies
`y + leading <= H - M` (given that a line fits on a fresh page at all),
and `x + tokenWidth <= W - M` holds for every token that is not placed at
the left margin; a token placed at the left margin may overflow the right
margin when it is wider than the printable width (see the
counterexample). -/
theorem c2_layout_bounds (W H leading : ℚ) (wOf : List Char → ℚ)
    (y0 : ℚ) (s : List Char)
    (hg : Client.M + (leading + 1) ≤ H - Client.M) :
    ∀ p ∈ Client.wrapCorrection W H leading wOf y0 s,
      p.y + leading ≤ H - Client.M ∧
      (Client.M < p.x → p.x + wOf p.t ≤ W - Client.M) := by
  intro p hp
  unfold Client.wrapCorrection at hp
  by_cases hs : s = []
  · rw [if_pos hs] at hp; simp at hp
  · rw [if_neg hs] at hp
    have h0 : (Client.need H (leading + 1)
        { x := Client.M, y := y0, page := 0 }).y + (leading + 1) ≤
        H - Client.M := need_bound H (leading + 1) _ hg
    have := layout_inv W H leading wOf hg
      (Client.stream (Client.parts s)) _ h0 p hp
    refine ⟨by linarith [this.1], fun hx => ?_⟩
    have h3 := this.2 hx
    have : Client.M + Client.CW W = W - Client.M := by
      unfold Client.CW; ring
    linarith

/-- Witness for C2 (amended) at a concrete geometry and input. -/
theorem c2_layout_bounds_witness :
    Client.M + ((4 : ℚ) + 1) ≤ 297 - Client.M ∧
    ((⟨("ab").data, 24, 24, 0, Client.black⟩ : Client.Placement).y + 4 ≤
        297 - Client.M ∧
      (Client.M < (⟨("ab").data, 24, 24, 0, Client.black⟩ :
        Client.Placement).x →
        (⟨("ab").data, 24, 24, 0, Client.black⟩ : Client.Placement).x +
          wLen (⟨("ab").data, 24, 24, 0, Client.black⟩ :
            Client.Placement).t ≤ 210 - Client.M)) := by
  have hcomp : Client.wrapCorrection 210 297 4 wLen 24 (("ab").data) =
      [⟨("ab").data, 24, 24, 0, Client.black⟩] := by
    have hs : Client.stream (Client.parts (("ab").data)) =
        [(Tok.word (("ab").data), Client.black)] := by decide
    unfold Client.wrapCorrection
    rw [if_neg (by decide), hs]
    norm_num [Client.layout, Client.layoutStep, Client.placeWord,
      Client.lineBreak, Client.need, Client.M, Client.CW, wLen]
  constructor
  · show (24 : ℚ) + (4 + 1) ≤ 297 - 24
    norm_num
  · exact c2_layout_bounds 210 297 4 wLen 24 (("ab").data)
      (by show (24 : ℚ) + (4 + 1) ≤ 297 - 24; norm_num)
      ⟨("ab").data, 24, 24, 0, Client.black⟩
      (by rw [hcomp]; exact List.mem_singleton_self _)

/-- Counterexample for C2 as frozen: a single 17-character word of width
170 (wider than the printable width 162 of an A4 page) is placed at the
left margin and overflows the right margin `210 - 24 = 186`. -/
theorem c2_cex_overflow :
    Client.wrapCorrection 210 297 4 wTen 24 (("abcdefghijklmnopq").data) =
      [⟨("abcdefghijklmnopq").data, 24, 24, 0, Client.black⟩] ∧
    ¬((24 : ℚ) + wTen (("abcdefghijklmnopq").data) ≤ 210 - Client.M) := by
  constructor
  · have hs : Client.stream (Client.parts (("abcdefghijklmnopq").data)) =
        [(Tok.word (("abcdefghijklmnopq").data), Client.black)] := by decide
    unfold Client.wrapCorrection
    rw [if_neg (by decide), hs]
    norm_num [Client.layout, Client.layoutStep, Client.placeWord,
      Client.lineBreak, Client.need, Client.M, Client.CW, wTen]
  · have hl : (("abcdefghijklmnopq").data).length = 17 := by decide
    simp only [wTen, hl, Client.M]
    norm_num

/-- C5 (amended): the newline handler of `wrapCorrection` resets the pen
to the left margin, and advances `y` by exactly one line-height — except
when fewer than `leading + 1` units would remain above the bottom margin,
in which case a new page starts and `y` resets to the top margin. -/
theorem c5_newline_exact (W H leading : ℚ) (wOf : List Char → ℚ)
    (st : Cursor) (c : ℕ × ℕ × ℕ) :
    Client.layoutStep W H leading wOf st (Tok.newline, c) =
      (if st.y + leading + (leading + 1) > H - Client.M
        then ⟨Client.M, Client.M, st.page + 1⟩
        else ⟨Client.M, st.y + leading, st.page⟩, []) := by
  obtain ⟨x, y, pg⟩ := st
  by_cases h : y + leading + (leading + 1) > H - Client.M
  · simp [Client.layoutStep, Client.lineBreak, Client.need, h]
  · simp [Client.layoutStep, Client.lineBreak, Client.need, h]

/-- Counterexample for C5 as frozen: with line-height 30 on a page of
height 100, the newline of `a\nb` triggers a page break, so the second
line's `y` is the top margin 24 of page 1, not `24 + 30`. -/
theorem c5_cex_pagebreak :
    Client.wrapCorrection 210 100 30 wLen 24 (("a\nb").data) =
      [⟨['a'], 24, 24, 0, Client.black⟩,
        ⟨['b'], 24, 24, 1, Client.black⟩] ∧
    ¬((24 : ℚ) = 24 + 30) := by
  constructor
  · have hs : Client.stream (Client.parts (("a\nb").data)) =
        [(Tok.word ['a'], Client.black), (Tok.newline, Client.black),
          (Tok.word ['b'], Client.black)] := by decide
    unfold Client.wrapCorrection
    rw [if_neg (by decide), hs]
    norm_num [Client.layout, Client.layoutStep, Client.placeWord,
      Client.lineBreak, Client.need, Client.M, Client.CW, wLen]
  · norm_num

end TelcWrite

namespace TelcWrite

/-- The break sequence characterized: left margin, plus either an exact
one-line-height advance or a page break to the top margin. -/
theorem lineBreak_cases (H leading : ℚ) (st : Cursor) :
    Client.lineBreak H leading st =
      if st.y + leading + (leading + 1) > H - Client.M
      then ⟨Client.M, Client.M, st.page + 1⟩
      else ⟨Client.M, st.y + leading, st.page⟩ := by
  obtain ⟨x, y, pg⟩ := st
  by_cases h : y + leading + (leading + 1) > H - Client.M
  · simp [Client.lineBreak, Client.need, h]
  · simp [Client.lineBreak, Client.need, h]

/-- C4: a line break is performed before placing a word chunk if and only
if the cursor is strictly past the left margin and the placement would
strictly exceed the right margin (a break is observable as a change of
page or of baseline, since a break always moves `y`); and a chunk exactly
as wide as the remaining line space is placed on the current line at the
unchanged cursor position. -/
theorem c4_break_iff (W H leading : ℚ) (wOf : List Char → ℚ) (st : Cursor)
    (t : List Char) (c : ℕ × ℕ × ℕ) (hl : 0 < leading) :
    (((Client.placeWord W H leading wOf st t c).2.page ≠ st.page ∨
        (Client.placeWord W H leading wOf st t c).2.y ≠ st.y) ↔
      (st.x > Client.M ∧ st.x + wOf t > Client.M + Client.CW W)) ∧
    (st.x + wOf t = Client.M + Client.CW W →
      (Client.placeWord W H leading wOf st t c).2 =
        ⟨t, st.x, st.y, st.page, c⟩) := by
  constructor
  · by_cases hcond : st.x > Client.M ∧ st.x + wOf t > Client.M + Client.CW W
    · refine iff_of_true ?_ hcond
      simp only [Client.placeWord, if_pos hcond]
      rw [lineBreak_cases]
      by_cases hpg : st.y + leading + (leading + 1) > H - Client.M
      · rw [if_pos hpg]
        left
        simp
      · rw [if_neg hpg]
        right
        show st.y + leading ≠ st.y
        intro heq
        have : leading = 0 := by linarith
        exact absurd this (by linarith)
    · refine iff_of_false ?_ hcond
      simp [Client.placeWord, if_neg hcond]
  · intro heq
    have hnc : ¬(st.x > Client.M ∧ st.x + wOf t > Client.M + Client.CW W) := by
      rintro ⟨_, hgt⟩
      rw [heq] at hgt
      exact lt_irrefl _ hgt
    simp [Client.placeWord, if_neg hnc]

/-- Witness for C4: a word of width 100 at cursor x = 100 on an A4 line
triggers a break (the baseline moves from 24 to 28). -/
theorem c4_break_iff_witness :
    (0 : ℚ) < 4 ∧
    ((((Client.placeWord 210 297 4 wTen ⟨100, 24, 0⟩ (("abcdefghij").data)
          Client.black).2.page ≠ (⟨100, 24, 0⟩ : Cursor).page ∨
        (Client.placeWord 210 297 4 wTen ⟨100, 24, 0⟩ (("abcdefghij").data)
          Client.black).2.y ≠ (⟨100, 24, 0⟩ : Cursor).y) ↔
      ((⟨100, 24, 0⟩ : Cursor).x > Client.M ∧
        (⟨100, 24, 0⟩ : Cursor).x + wTen (("abcdefghij").data) >
          Client.M + Client.CW 210)) ∧
    ((⟨100, 24, 0⟩ : Cursor).x + wTen (("abcdefghij").data) =
        Client.M + Client.CW 210 →
      (Client.placeWord 210 297 4 wTen ⟨100, 24, 0⟩ (("abcdefghij").data)
          Client.black).2 =
        ⟨("abcdefghij").data, (⟨100, 24, 0⟩ : Cursor).x,
          (⟨100, 24, 0⟩ : Cursor).y, (⟨100, 24, 0⟩ : Cursor).page,
          Client.black⟩)) :=
  ⟨by norm_num, c4_break_iff 210 297 4 wTen ⟨100, 24, 0⟩
    (("abcdefghij").data) Client.black (by norm_num)⟩

/-- C3 (code bug): the part_001 tokenizer stores `strike: true` on the
deleted segment (and the function's own comment promises red
strikethrough), but `renderCorrection` never passes a `strike` option to
`doc.text`, so the deleted token is drawn red *without* strikethrough;
the added token is drawn green and bold as documented. -/
theorem c3_strike_never_applied :
    Server.tokenize (("--ab-- ++cd++").data) =
      [⟨("ab").data, Server.RED, true, false⟩,
        ⟨(" ").data, Server.BLACK, false, false⟩,
        ⟨("cd").data, Server.GREEN, false, true⟩] ∧
    Server.renderCorrection 800 500 wLen 68 (("--ab-- ++cd++").data) =
      [⟨("ab").data, 68, 68, 0, Server.RED, false, false⟩,
        ⟨(" ").data, 70, 68, 0, Server.BLACK, false, false⟩,
        ⟨("cd").data, 71, 68, 0, Server.GREEN, true, false⟩] := by
  have hsegs : Server.tokenize (("--ab-- ++cd++").data) =
      [⟨("ab").data, Server.RED, true, false⟩,
        ⟨(" ").data, Server.BLACK, false, false⟩,
        ⟨("cd").data, Server.GREEN, false, true⟩] := by decide
  refine ⟨hsegs, ?_⟩
  unfold Server.renderCorrection
  rw [hsegs]
  dsimp only
  have hstream :
      ((([⟨("ab").data, Server.RED, true, false⟩,
          ⟨(" ").data, Server.BLACK, false, false⟩,
          ⟨("cd").data, Server.GREEN, false, true⟩] :
            List Server.Seg).map
          (fun seg => (toksStart seg.t).map (fun tk => (tk, seg)))).flatten) =
      [(Tok.word (("ab").data), ⟨("ab").data, Server.RED, true, false⟩),
        (Tok.word ((" ").data), ⟨(" ").data, Server.BLACK, false, false⟩),
        (Tok.word (("cd").data),
          ⟨("cd").data, Server.GREEN, false, true⟩)] := by decide
  rw [hstream]
  norm_num [Server.layoutK, Server.stepK, Server.lineBreakK,
    Server.checkPage, Server.M, Server.lineHeight, wLen]

end TelcWrite

namespace TelcWrite

/-- C8: the generation flow makes at most `MAX_RETRIES = 3` calls to
`createDocument`; after three title collisions it gives up and reports
the duplicate-title failure (HTTP 409); a success at attempt `k < 3`
(after only collisions) answers the request after `k + 1` calls; any
other error aborts immediately with HTTP 500, with no further attempts. -/
theorem c8_retry_bound (outcomes : ℕ → Flow.CreateOutcome) :
    Flow.MAX_RETRIES = 3 ∧
    ((∀ i, i < 3 → outcomes i = Flow.CreateOutcome.duplicate) →
      Flow.generateExercise outcomes = (Flow.GenResult.conflict409, 3)) ∧
    (∀ k, k < 3 → (∀ i, i < k → outcomes i = Flow.CreateOutcome.duplicate) →
      ∀ id, outcomes k = Flow.CreateOutcome.ok id →
        Flow.generateExercise outcomes =
          (Flow.GenResult.success id, k + 1)) ∧
    (∀ k, k < 3 → (∀ i, i < k → outcomes i = Flow.CreateOutcome.duplicate) →
      outcomes k = Flow.CreateOutcome.otherError →
        Flow.generateExercise outcomes = (Flow.GenResult.error500, k + 1)) := by
  refine ⟨rfl, ?_, ?_, ?_⟩
  · intro h
    have h0 := h 0 (by norm_num)
    have h1 := h 1 (by norm_num)
    have h2 := h 2 (by norm_num)
    simp [Flow.generateExercise, Flow.MAX_RETRIES, Flow.genLoop, h0, h1, h2]
  · intro k hk hdup id hok
    interval_cases k
    · simp [Flow.generateExercise, Flow.MAX_RETRIES, Flow.genLoop, hok]
    · have h0 := hdup 0 (by norm_num)
      simp [Flow.generateExercise, Flow.MAX_RETRIES, Flow.genLoop, h0, hok]
    · have h0 := hdup 0 (by norm_num)
      have h1 := hdup 1 (by norm_num)
      simp [Flow.generateExercise, Flow.MAX_RETRIES, Flow.genLoop, h0, h1,
        hok]
  · intro k hk hdup hot
    interval_cases k
    · simp [Flow.generateExercise, Flow.MAX_RETRIES, Flow.genLoop, hot]
    · have h0 := hdup 0 (by norm_num)
      simp [Flow.generateExercise, Flow.MAX_RETRIES, Flow.genLoop, h0, hot]
    · have h0 := hdup 0 (by norm_num)
      have h1 := hdup 1 (by norm_num)
      simp [Flow.generateExercise, Flow.MAX_RETRIES, Flow.genLoop, h0, h1,
        hot]

/-- Witness for C8: all-duplicate outcomes give up with 409 after three
calls; a non-duplicate error at attempt 1 aborts after two calls. -/
theorem c8_retry_bound_witness :
    Flow.generateExercise (fun _ => Flow.CreateOutcome.duplicate) =
      (Flow.GenResult.conflict409, 3) ∧
    Flow.generateExercise
        (fun i => if i = 1 then Flow.CreateOutcome.otherError
          else Flow.CreateOutcome.duplicate) =
      (Flow.GenResult.error500, 2) := by
  constructor
  · exact (c8_retry_bound (fun _ => Flow.CreateOutcome.duplicate)).2.1
      (fun i _ => rfl)
  · exact (c8_retry_bound _).2.2.2 1 (by norm_num)
      (fun i hi => by interval_cases i; rfl) rfl

/-- A search over a list where the predicate never holds finds nothing. -/
theorem findIdx?_none_of {α : Type} (p : α → Bool) :
    ∀ l : List α, (∀ x ∈ l, p x = false) → l.findIdx? p = none := by
  intro l
  induction l with
  | nil => intro _; rfl
  | cons a t ih =>
    intro h
    rw [List.findIdx?_cons, if_neg (by simp [h a (by simp)]),
      List.findIdx?_succ, ih (fun x hx => h x (by simp [hx]))]
    rfl

/-- `findIdx?` fails exactly when the predicate never holds. -/
theorem findIdx?_none_iff {α : Type} (p : α → Bool) :
    ∀ l : List α, l.findIdx? p = none ↔ ∀ x ∈ l, p x = false := by
  intro l
  constructor
  · intro h x hx
    induction l with
    | nil => simp at hx
    | cons a t ih =>
      rw [List.findIdx?_cons] at h
      by_cases hpa : p a = true
      · rw [if_pos hpa] at h; simp at h
      · rw [if_neg hpa, List.findIdx?_succ] at h
        rcases List.mem_cons.mp hx with rfl | hx2
        · simpa using hpa
        · exact ih (by simpa using h) hx2
  · exact findIdx?_none_of p l

/-- Erasing the found index of a predicate that holds at most once leaves
a list where the predicate never holds. -/
theorem findIdx?_erase_unique {α : Type} (p : α → Bool) :
    ∀ (l : List α) (n : ℕ), l.countP p ≤ 1 → l.findIdx? p = some n →
      ∀ x ∈ l.eraseIdx n, p x = false := by
  intro l
  induction l with
  | nil => intro n _ h; simp [List.findIdx?] at h
  | cons a t ih =>
    intro n hcount hfind x hx
    rw [List.findIdx?_cons] at hfind
    by_cases hpa : p a = true
    · rw [if_pos hpa] at hfind
      injection hfind with hn
      subst hn
      rw [List.eraseIdx_cons_zero] at hx
      have hc : t.countP p = 0 := by
        rw [List.countP_cons, if_pos hpa] at hcount
        omega
      have := List.countP_eq_zero.mp hc x hx
      simpa using this
    · rw [if_neg hpa, List.findIdx?_succ] at hfind
      cases hm : t.findIdx? p with
      | none => rw [hm] at hfind; simp at hfind
      | some m =>
        rw [hm] at hfind
        simp only [Option.map_some'] at hfind
        injection hfind with hn
        subst hn
        rw [List.eraseIdx_cons_succ] at hx
        rcases List.mem_cons.mp hx with rfl | hx2
        · simpa using hpa
        · have hcount2 : t.countP p ≤ 1 := by
            rw [List.countP_cons] at hcount
            omega
          exact ih m hcount2 hm x hx2

/-- A search over a list where the predicate holds somewhere succeeds. -/
theorem findIdx?_isSome_of {α : Type} (p : α → Bool) (l : List α)
    (h : ∃ x ∈ l, p x = true) : (l.findIdx? p).isSome = true := by
  cases hm : l.findIdx? p with
  | none =>
    obtain ⟨x, hx, hpx⟩ := h
    have := (findIdx?_none_iff p l).mp hm x hx
    simp [hpx] at this
  | some n => rfl

end TelcWrite

namespace TelcWrite

/-- C9: deleting a nonexistent document fails with the distinguishable
`DOCUMENT_NOT_FOUND` condition and leaves the store unchanged (both
repository variants); deleting an existing document succeeds and removes
the document together with its content rows (the sqlite variant deletes
every matching row; the lowdb variant splices out the single matching
content row, so under the at-most-one-content-per-document invariant that
`upsertContent` maintains, no content row for the id remains). -/
theorem c9_delete_cascade (st : Repo.Store) (id : String) :
    Repo.DOCUMENT_NOT_FOUND ≠ Repo.DUPLICATE_DOCUMENT ∧
    ((∀ d ∈ st.documents, d.id ≠ id) →
      Repo.deleteDocument st id = (some Repo.DOCUMENT_NOT_FOUND, st) ∧
      Repo.deleteDocumentLow st id = (some Repo.DOCUMENT_NOT_FOUND, st)) ∧
    ((∃ d ∈ st.documents, d.id = id) →
      (Repo.deleteDocument st id).1 = none ∧
      (∀ d ∈ (Repo.deleteDocument st id).2.documents, d.id ≠ id) ∧
      (∀ c ∈ (Repo.deleteDocument st id).2.contents, c.documentId ≠ id) ∧
      (Repo.deleteDocumentLow st id).1 = none) ∧
    ((∃ d ∈ st.documents, d.id = id) →
      st.contents.countP (fun c => c.documentId == id) ≤ 1 →
      ∀ c ∈ (Repo.deleteDocumentLow st id).2.contents,
        c.documentId ≠ id) := by
  refine ⟨by decide, ?_, ?_, ?_⟩
  · intro h
    have hfind : st.documents.find? (fun d => d.id == id) = none :=
      List.find?_eq_none.mpr (fun d hd => by simp [h d hd])
    have hidx : st.documents.findIdx? (fun d => d.id == id) = none :=
      findIdx?_none_of _ _ (fun d hd => by simp [h d hd])
    constructor
    · simp [Repo.deleteDocument, hfind]
    · simp [Repo.deleteDocumentLow, hidx]
  · intro h
    obtain ⟨d0, hd0, hid0⟩ := h
    have hfind : (st.documents.find? (fun d => d.id == id)).isSome = true :=
      List.find?_isSome.mpr ⟨d0, hd0, by simp [hid0]⟩
    have hnn : ¬(st.documents.find? (fun d => d.id == id)).isNone = true := by
      cases hm : st.documents.find? (fun d => d.id == id) with
      | none => rw [hm] at hfind; simp at hfind
      | some _ => simp
    refine ⟨?_, ?_, ?_, ?_⟩
    · simp [Repo.deleteDocument, hnn]
    · intro d hd
      rw [Repo.deleteDocument, if_neg hnn] at hd
      have := List.mem_filter.mp hd
      simpa using this.2
    · intro c hc
      rw [Repo.deleteDocument, if_neg hnn] at hc
      have := List.mem_filter.mp hc
      simpa using this.2
    · have hsome : (st.documents.findIdx? (fun d => d.id == id)).isSome =
          true := findIdx?_isSome_of _ _ ⟨d0, hd0, by simp [hid0]⟩
      cases hm : st.documents.findIdx? (fun d => d.id == id) with
      | none => rw [hm] at hsome; simp at hsome
      | some n => simp [Repo.deleteDocumentLow, hm]
  · intro h hcount c hc
    obtain ⟨d0, hd0, hid0⟩ := h
    have hsome : (st.documents.findIdx? (fun d => d.id == id)).isSome =
        true := findIdx?_isSome_of _ _ ⟨d0, hd0, by simp [hid0]⟩
    cases hm : st.documents.findIdx? (fun d => d.id == id) with
    | none => rw [hm] at hsome; simp at hsome
    | some n =>
      rw [Repo.deleteDocumentLow] at hc
      rw [hm] at hc
      simp only [] at hc
      cases hcm : st.contents.findIdx? (fun c => c.documentId == id) with
      | none =>
        rw [hcm] at hc
        have := (findIdx?_none_iff _ _).mp hcm c (by simpa using hc)
        simpa using this
      | some m =>
        rw [hcm] at hc
        have := findIdx?_erase_unique _ st.contents m hcount hcm c
          (by simpa using hc)
        simpa using this

end TelcWrite

namespace TelcWrite

/-- Witness for C9 at a one-document store. -/
theorem c9_delete_cascade_witness :
    (∃ d ∈ ([⟨("d1"), ("T"), ("D")⟩] : List Repo.Document), d.id = "d1") ∧
    ((Repo.deleteDocument
        ⟨[⟨("d1"), ("T"), ("D")⟩],
          [⟨("d1"), ("t"), ("s"), none, ("f"), ("c")⟩]⟩ ("d1")).1 = none ∧
      (∀ d ∈ (Repo.deleteDocument
          ⟨[⟨("d1"), ("T"), ("D")⟩],
            [⟨("d1"), ("t"), ("s"), none, ("f"), ("c")⟩]⟩
          ("d1")).2.documents, d.id ≠ "d1") ∧
      (∀ c ∈ (Repo.deleteDocument
          ⟨[⟨("d1"), ("T"), ("D")⟩],
            [⟨("d1"), ("t"), ("s"), none, ("f"), ("c")⟩]⟩
          ("d1")).2.contents, c.documentId ≠ "d1") ∧
      (Repo.deleteDocumentLow
        ⟨[⟨("d1"), ("T"), ("D")⟩],
          [⟨("d1"), ("t"), ("s"), none, ("f"), ("c")⟩]⟩ ("d1")).1 = none) ∧
    (∀ c ∈ (Repo.deleteDocumentLow
        ⟨[⟨("d1"), ("T"), ("D")⟩],
          [⟨("d1"), ("t"), ("s"), none, ("f"), ("c")⟩]⟩
        ("d1")).2.contents, c.documentId ≠ "d1") := by
  refine ⟨⟨⟨("d1"), ("T"), ("D")⟩, by simp, rfl⟩, ?_, ?_⟩
  · exact (c9_delete_cascade
      ⟨[⟨("d1"), ("T"), ("D")⟩],
        [⟨("d1"), ("t"), ("s"), none, ("f"), ("c")⟩]⟩ ("d1")).2.2.1
      ⟨⟨("d1"), ("T"), ("D")⟩, by simp, rfl⟩
  · exact (c9_delete_cascade
      ⟨[⟨("d1"), ("T"), ("D")⟩],
        [⟨("d1"), ("t"), ("s"), none, ("f"), ("c")⟩]⟩ ("d1")).2.2.2
      ⟨⟨("d1"), ("T"), ("D")⟩, by simp, rfl⟩ (by decide)

/-- C10: for every store, sort key and integer page request, and every
positive limit (the route clamps `limit` into `[1, 100]`),
`getDocuments` returns `totalPages >= 1` (even for an empty store), a
page number clamped into `[1, totalPages]`, and at most `limit`
documents. -/
theorem c10_pagination (key : Repo.Document → ℕ)
    (docs : List Repo.Document) (page : ℤ) (limit : ℕ) (h : 0 < limit) :
    1 ≤ (Repo.getDocuments key docs page limit).totalPages ∧
    1 ≤ (Repo.getDocuments key docs page limit).page ∧
    (Repo.getDocuments key docs page limit).page ≤
      ((Repo.getDocuments key docs page limit).totalPages : ℤ) ∧
    (Repo.getDocuments key docs page limit).documents.length ≤ limit := by
  refine ⟨?_, ?_, ?_, ?_⟩
  · simp [Repo.getDocuments]
  · simp [Repo.getDocuments]
  · simp only [Repo.getDocuments]
    have h1 : (1 : ℤ) ≤
        ((max 1 (((Repo.sortDesc key docs).length + limit - 1) / limit) :
          ℕ) : ℤ) := by
      exact_mod_cast Nat.one_le_iff_ne_zero.mpr (by positivity)
    exact max_le h1 (min_le_right _ _)
  · simp only [Repo.getDocuments]
    have := List.length_take limit
      ((Repo.sortDesc key docs).drop
        ((((max 1 (min page ((max 1
          (((Repo.sortDesc key docs).length + limit - 1) / limit) : ℕ) :
            ℤ))) - 1) * (limit : ℤ)).toNat))
    omega

/-- Witness for C10 on the empty store. -/
theorem c10_pagination_witness :
    0 < 5 ∧
    (1 ≤ (Repo.getDocuments (fun _ => 0) [] 0 5).totalPages ∧
      1 ≤ (Repo.getDocuments (fun _ => 0) [] 0 5).page ∧
      (Repo.getDocuments (fun _ => 0) [] 0 5).page ≤
        ((Repo.getDocuments (fun _ => 0) [] 0 5).totalPages : ℤ) ∧
      (Repo.getDocuments (fun _ => 0) [] 0 5).documents.length ≤ 5) :=
  ⟨by norm_num, c10_pagination (fun _ => 0) [] 0 5 (by norm_num)⟩

end TelcWrite

namespace TelcWrite

/-- Witness for C1 (amended) at a concrete marked-up input. -/
theorem c1_roundtrip_server_witness :
    Server.reassemble (Server.tokenize (("--a--x++b++").data)) =
      ("--a--x++b++").data :=
  c1_roundtrip_server (("--a--x").data ++ ("++b++").data)

/-- Witness for C5 (amended): a newline near the bottom of a short page
starts page 1 at the top margin. -/
theorem c5_newline_exact_witness :
    Client.layoutStep 210 100 30 wLen ⟨24, 54, 0⟩ (Tok.newline, Client.black) =
      (⟨Client.M, Client.M, 1⟩, []) := by
  have h := c5_newline_exact 210 100 30 wLen ⟨24, 54, 0⟩ Client.black
  rw [h]
  norm_num [Client.M]

end TelcWrite
